import Mathlib

/-!
Verification of the MeasureNeurons skeleton-graph core
(cellprofiler/modules/measureneurons.py).  We give a shallow embedding of
the classification stage of `MeasureNeurons.run` (lines 242-347) and of
`MeasureNeurons.make_neuron_graph`, and prove the frozen claims about it.

Images are row-major lists of lists; an out-of-range read returns the
ambient default (false / 0), mirroring the zero padding and guarded
slicing of the numpy source.  Morphology primitives that live in
cellprofiler.cpmath (outside src/) are modelled from the spec and say so
in their doc comments.
-/

namespace MN

abbrev BImg := List (List Bool)
abbrev NImg := List (List Nat)
abbrev QImg := List (List ℚ)

abbrev ZImg := List (List Int)

def cell (d : α) (g : List (List α)) (i j : Nat) : α :=
  ((g[i]?.getD [])[j]?).getD d

def getB (g : BImg) (i j : Nat) : Bool := cell false g i j

def getN (g : NImg) (i j : Nat) : Nat := cell 0 g i j

def getQ (g : QImg) (i j : Nat) : ℚ := cell 0 g i j

def getZ (g : ZImg) (i j : Nat) : Int := cell 0 g i j

/-- The classification threshold 1.5 of run lines 294-295, written as the
reduced fraction 3/2 so that comparisons against it evaluate. -/
def threeHalves : ℚ := ⟨3, 2, by norm_num, by norm_num⟩

theorem threeHalves_eq : threeHalves = 3 / 2 := by
  unfold threeHalves
  rw [Rat.mk'_eq_divInt, Rat.divInt_eq_div]
  norm_num

def height (g : List (List α)) : Nat := g.length

def width (g : List (List α)) : Nat := (g.map List.length).foldr max 0

def mkG (h w : Nat) (f : Nat → Nat → α) : List (List α) :=
  (List.range h).map fun i => (List.range w).map fun j => f i j

theorem cell_mkG (d : α) (h w : Nat) (f : Nat → Nat → α) (i j : Nat) :
    cell d (mkG h w f) i j = if i < h ∧ j < w then f i j else d := by
  unfold cell mkG
  rcases Nat.lt_or_ge i h with hi | hi
  · rw [List.getElem?_map, List.getElem?_range hi]
    rcases Nat.lt_or_ge j w with hj | hj
    · simp [List.getElem?_map, List.getElem?_range hj, hi, hj]
    · rw [if_neg (by omega)]
      simp only [Option.map_some', Option.getD_some]
      rw [List.getElem?_map,
        List.getElem?_eq_none (show (List.range w).length ≤ j by simpa using hj)]
      rfl
  · rw [List.getElem?_map,
      List.getElem?_eq_none (show (List.range h).length ≤ i by simpa using hi)]
    rw [if_neg (by omega)]
    rfl

theorem height_mkG (h w : Nat) (f : Nat → Nat → α) : height (mkG h w f) = h := by
  simp [height, mkG]

theorem length_le_width {g : List (List α)} {r : List α} (hr : r ∈ g) :
    r.length ≤ width g := by
  unfold width
  induction g with
  | nil => simp at hr
  | cons a l ih =>
    rcases List.mem_cons.mp hr with h | h
    · subst h
      exact le_max_left _ _
    · exact le_trans (ih h) (le_max_right _ _)

theorem getB_bounds {g : BImg} {i j : Nat} (h : getB g i j = true) :
    i < height g ∧ j < width g := by
  unfold getB cell at h
  by_cases hi : i < g.length
  · rw [List.getElem?_eq_getElem hi] at h
    simp only [Option.getD_some] at h
    by_cases hj : j < (g[i]).length
    · exact ⟨hi, lt_of_lt_of_le hj (length_le_width (List.getElem_mem hi))⟩
    · rw [List.getElem?_eq_none (Nat.le_of_not_lt hj)] at h
      simp at h
  · rw [List.getElem?_eq_none (Nat.le_of_not_lt hi)] at h
    simp at h

/-- The 8-connectivity neighbor offsets. -/
def nbrOffsets : List (Int × Int) :=
  [(-1,-1),(-1,0),(-1,1),(0,-1),(0,1),(1,-1),(1,0),(1,1)]

def getBZ (g : BImg) (i j : Int) : Bool :=
  if 0 ≤ i ∧ 0 ≤ j then getB g i.toNat j.toNat else false

def nbrCount (g : BImg) (i j : Nat) : Nat :=
  (nbrOffsets.filter fun d => getBZ g ((i : Int) + d.1) ((j : Int) + d.2)).length

/-- Modelled from the spec: `branchPoints(skeleton)` of the morphology
primitives (cellprofiler.cpmath.cpmorphology.branchpoints is not under
src/) — a pixel is a branch point when it is on the skeleton and its
8-neighborhood pattern has at least 3 skeleton arms. -/
def branchPoints (g : BImg) (i j : Nat) : Bool :=
  getB g i j && decide (3 ≤ nbrCount g i j)

/-- Modelled from the spec: `endPoints(skeleton)` (cpmorphology.endpoints
is not under src/) — a skeleton pixel with exactly one skeleton neighbor. -/
def endPoints (g : BImg) (i j : Nat) : Bool :=
  getB g i j && decide (nbrCount g i j = 1)

/-- Modelled from the spec: `branchingDegree(skeleton)`
(cpmorphology.branchings is not under src/) — 0 for non-skeleton pixels
and the raw neighbor count for skeleton pixels; the caller maps it
through the table [0,0,0,1,2]. -/
def branchings (g : BImg) (i j : Nat) : Nat :=
  if getB g i j then nbrCount g i j else 0

/-- The lookup table [0,0,0,1,2] applied in run line 279.  A raw count of
5 or more reads 0 here; the one-pixel-wide skeletons the module builds do
not produce that case. -/
def branchTable (n : Nat) : Nat := [0,0,0,1,2].getD n 0

/-- scipy binary_dilation with the 8-connected structuring element
(run, line 283). -/
def dilate8 (g : BImg) (i j : Nat) : Bool :=
  getB g i j || nbrOffsets.any fun d => getBZ g ((i : Int) + d.1) ((j : Int) + d.2)

/-- The checkerboard test exactly as run lines 270-271 compute it: the
fourth conjunct reads the fixed skeleton pixel (1,1)
(`combined_skel[1,1]` in the source), not the shifted array. -/
def oddCase (sk : BImg) (i j : Nat) : Bool :=
  getB sk i j && getB sk (i+1) j && getB sk i (j+1) && getB sk 1 1

/-- Modelled from the spec: the intended diagonal-crossing detection —
all four pixels of the 2x2 block at (i,j) skeleton-true. -/
def oddCaseSpec (sk : BImg) (i j : Nat) : Bool :=
  getB sk i j && getB sk (i+1) j && getB sk i (j+1) && getB sk (i+1) (j+1)

/-- The odd_case array has shape (h-1, w-1). -/
def oddInRange (h w i j : Nat) : Bool := decide (i + 1 < h) && decide (j + 1 < w)

/-- The branch-point fix-up of run lines 270-273:
`branch_points[:-1,:-1][odd_case] = True` marks pixel (i, j) when
odd_case holds at (i, j), and `branch_points[1:,1:][odd_case] = True`
marks pixel (i, j) when odd_case holds at (i-1, j-1). -/
def fixupBranchPoints (h w : Nat) (sk bp : BImg) : BImg :=
  mkG h w fun i j =>
    getB bp i j
    || (oddInRange h w i j && oddCase sk i j)
    || (decide (1 ≤ i) && decide (1 ≤ j) &&
        oddInRange h w (i - 1) (j - 1) && oddCase sk (i - 1) (j - 1))

/-- The diagonal-crossing X pattern of the source's own comment
(run, lines 262-268), placed so that its central 2x2 block sits at
rows 3-4, cols 3-4 and the image pixel (1,1) is off. -/
def skC1 : BImg :=
  [[false,false,false,false,false,false,false],
   [false,false,false,false,false,false,false],
   [false,false,true ,false,false,true ,false],
   [false,false,false,true ,true ,false,false],
   [false,false,false,true ,true ,false,false],
   [false,false,true ,false,false,true ,false],
   [false,false,false,false,false,false,false]]

def bpC1 : BImg := mkG 7 7 fun _ _ => false

/-- C1: at the failing input the 2x2 block at rows 3-4, cols 3-4 is fully
skeleton-true in the diagonal-crossing arrangement, and the spec-modelled
detection sees it, yet the fix-up of run lines 270-273 leaves both of its
diagonal pixels out of the branch-point mask: the source tests the fixed
pixel (1,1) (`combined_skel[1,1]`) instead of the block's own
bottom-right pixel (`combined_skel[1:,1:]`). -/
theorem C1_code_eval :
    (getB skC1 3 3 && getB skC1 4 3 && getB skC1 3 4 && getB skC1 4 4) = true ∧
    oddCaseSpec skC1 3 3 = true ∧
    oddCase skC1 3 3 = false ∧
    getB (fixupBranchPoints 7 7 skC1 bpC1) 3 3 = false ∧
    getB (fixupBranchPoints 7 7 skC1 bpC1) 4 4 = false := by
  decide

/-! ## The classification stage of `MeasureNeurons.run`

The morphological front end (strel_disk dilation/erosion, hole filling and
`morph.skeletonize`, run lines 221-242) lives in cellprofiler.cpmath,
outside src/ and with no constructive description in the spec; the stage
below therefore takes the reskeletonized combined skeleton, the dilated
seed labels and the propagation result (dlabels, distance_map) as its
inputs and embeds run lines 244-347. -/

structure ClassifyIn where
  sk : BImg
  dil : NImg
  dl : NImg
  dist : QImg
  img : ZImg
  nLabels : Nat

def ch (c : ClassifyIn) : Nat := height c.sk

def cw (c : ClassifyIn) : Nat := width c.sk

/-- combined_skel[dlabels == 0] = False (run, line 256). -/
def cleanSkel (c : ClassifyIn) : BImg :=
  mkG (ch c) (cw c) fun i j => getB c.sk i j && decide (getN c.dl i j ≠ 0)

/-- outside_skel = combined_skel & (dilated_labels == 0) (run, line 246),
computed before the unreachable pixels are removed. -/
def outsideSkel (c : ClassifyIn) : BImg :=
  mkG (ch c) (cw c) fun i j => getB c.sk i j && decide (getN c.dil i j = 0)

/-- dilated_skel = binary_dilation(outside_skel, eight_connect)
(run, line 283). -/
def dilatedSkel (c : ClassifyIn) : BImg :=
  mkG (ch c) (cw c) fun i j => dilate8 (outsideSkel c) i j

/-- branch_points of run lines 260-273: branch-point detection on the
cleaned skeleton followed by the source's odd-case fix-up. -/
def branchPts (c : ClassifyIn) : BImg :=
  fixupBranchPoints (ch c) (cw c) (cleanSkel c)
    (mkG (ch c) (cw c) fun i j => branchPoints (cleanSkel c) i j)

/-- branching_counts of run lines 278-284: the [0,0,0,1,2] table applied
to the branching degree, then zeroed outside the dilated outside
skeleton. -/
def branchingCounts (c : ClassifyIn) : NImg :=
  mkG (ch c) (cw c) fun i j =>
    if getB (dilatedSkel c) i j then branchTable (branchings (cleanSkel c) i j) else 0

/-- end_points = morph.endpoints(combined_skel) (run, line 288). -/
def endPts (c : ClassifyIn) : BImg :=
  mkG (ch c) (cw c) fun i j => endPoints (cleanSkel c) i j

/-- nearby_labels: dlabels with every pixel of propagation distance above
1.5 zeroed (run, lines 294-295). -/
def nearbyLabels (c : ClassifyIn) (i j : Nat) : Nat :=
  if threeHalves < getQ c.dist i j then 0 else getN c.dl i j

/-- outside_labels: dlabels with the nearby pixels zeroed
(run, lines 297-298). -/
def outsideLabels (c : ClassifyIn) (i j : Nat) : Nat :=
  if 0 < nearbyLabels c i j then 0 else getN c.dl i j

def sumOver (h w : Nat) (f : Nat → Nat → Nat) : Nat :=
  ∑ i ∈ Finset.range h, ∑ j ∈ Finset.range w, f i j

/-- trunk_counts = scind.sum(branching_counts, nearby_labels, label_range)
at label s (run, lines 303-305). -/
def trunkCounts (c : ClassifyIn) (s : Nat) : Nat :=
  sumOver (ch c) (cw c) fun i j =>
    if nearbyLabels c i j = s then getN (branchingCounts c) i j else 0

/-- branch_counts = scind.sum(branch_points, outside_labels, label_range)
at label s (run, lines 311-313). -/
def branchCounts (c : ClassifyIn) (s : Nat) : Nat :=
  sumOver (ch c) (cw c) fun i j =>
    if outsideLabels c i j = s ∧ getB (branchPts c) i j = true then 1 else 0

/-- end_counts = scind.sum(end_points, outside_labels, label_range)
at label s (run, line 320). -/
def endCounts (c : ClassifyIn) (s : Nat) : Nat :=
  sumOver (ch c) (cw c) fun i j =>
    if outsideLabels c i j = s ∧ getB (endPts c) i j = true then 1 else 0

/-- trunk_mask = (branching_counts > 0) & (nearby_labels != 0)
(run, line 339). -/
def trunkMask (c : ClassifyIn) : BImg :=
  mkG (ch c) (cw c) fun i j =>
    decide (0 < getN (branchingCounts c) i j) && decide (nearbyLabels c i j ≠ 0)

/-- branch_points & ~trunk_mask, the branchpoint mask handed to
make_neuron_graph (run, line 345). -/
def branchMask (c : ClassifyIn) : BImg :=
  mkG (ch c) (cw c) fun i j => getB (branchPts c) i j && !(getB (trunkMask c) i j)

/-! ## `MeasureNeurons.make_neuron_graph` -/

inductive Kind where
  | T
  | B
  | E
deriving DecidableEq, Repr

structure Vertex where
  i : Nat
  j : Nat
  lab : Nat
  kind : Kind
deriving DecidableEq, Repr

structure Row where
  v1 : Nat
  v2 : Nat
  len : Nat
  mag : Int
deriving DecidableEq, Repr

structure GraphIn where
  sk : BImg
  lbl : NImg
  trunks : BImg
  branches : BImg
  ends : BImg
  img : ZImg

def gh (g : GraphIn) : Nat := height g.sk

def gw (g : GraphIn) : Nat := width g.sk

/-- points_of_interest = trunks | branchpoints | endpoints
(make_neuron_graph, line 581). -/
def poiB (g : GraphIn) (i j : Nat) : Bool :=
  getB g.trunks i j || getB g.branches i j || getB g.ends i j

/-- The points of interest in raster-scan order: vertex k (1-based) is
entry k-1 of this list (make_neuron_graph, lines 577-593). -/
def poiList (g : GraphIn) : List (Nat × Nat) :=
  (List.range (gh g)).flatMap fun i =>
    (List.range (gw g)).filterMap fun j => if poiB g i j then some (i, j) else none

def nPoints (g : GraphIn) : Nat := (poiList g).length

/-- tbe: 'T' for trunks, then overwritten by 'B' for branchpoints, then by
'E' for endpoints (make_neuron_graph, lines 586-589) — so an endpoint
pixel always reads 'E'. -/
def kindAt (g : GraphIn) (i j : Nat) : Kind :=
  if getB g.ends i j then .E else if getB g.branches i j then .B else .T

/-- The vertex table (make_neuron_graph, lines 590-595). -/
def vertexTable (g : GraphIn) : List Vertex :=
  (poiList g).map fun p => ⟨p.1, p.2, getN g.lbl p.1 p.2, kindAt g p.1 p.2⟩

/-- broken_skeleton = skeleton & ~points_of_interest
(make_neuron_graph, line 600). -/
def broken (g : GraphIn) : BImg :=
  mkG (gh g) (gw g) fun i j => getB g.sk i j && !(poiB g i j)

def rIdx (w i j : Nat) : Nat := i * w + j

def ccInit (g : GraphIn) : NImg :=
  mkG (gh g) (gw g) fun i j =>
    if getB (broken g) i j then rIdx (gw g) i j else gh g * gw g

def ccStep (br : BImg) (h w : Nat) (m : NImg) : NImg :=
  mkG h w fun i j =>
    if getB br i j then
      nbrOffsets.foldr
        (fun d acc =>
          if getBZ br ((i : Int) + d.1) ((j : Int) + d.2) then
            min (getN m ((i : Int) + d.1).toNat ((j : Int) + d.2).toNat) acc
          else acc)
        (getN m i j)
    else h * w

/-- Modelled from the spec: `labelSkeletonSegments` — connected-component
labeling of the broken skeleton under 8-connectivity
(morph.label_skeleton, outside src/, followed by zeroing the points of
interest and reindexing, make_neuron_graph lines 604-614).  Each broken
pixel converges to the minimal raster index of its component; we use that
representative (plus 1) as the segment label, a bijective relabeling of
the source's contiguous ids that leaves every grouped quantity
unchanged. -/
def ccRaw (g : GraphIn) : NImg :=
  (ccStep (broken g) (gh g) (gw g))^[gh g * gw g] (ccInit g)

def segLabel (g : GraphIn) (i j : Nat) : Nat :=
  if getB (broken g) i j then getN (ccRaw g) i j + 1 else 0

/-- lengths: the pixel count of each labeled segment
(make_neuron_graph, lines 619-620). -/
def segLen (g : GraphIn) (s : Nat) : Nat :=
  sumOver (gh g) (gw g) fun i j => if segLabel g i j = s then 1 else 0

def sumOverZ (h w : Nat) (f : Nat → Nat → Int) : Int :=
  ∑ i ∈ Finset.range h, ∑ j ∈ Finset.range w, f i j

/-- magnitudes: the summed intensity of each labeled segment
(make_neuron_graph, line 618). -/
def segMag (g : GraphIn) (s : Nat) : Int :=
  sumOverZ (gh g) (gw g) fun i j => if segLabel g i j = s then getZ g.img i j else 0

def idxIn (p : Nat × Nat) : List (Nat × Nat) → Option Nat
  | [] => none
  | q :: l => if q = p then some 0 else (idxIn p l).map (· + 1)

/-- The 1-based vertex index written into all_labels at a point of
interest, 0 elsewhere (make_neuron_graph, line 630). -/
def vtxVal (g : GraphIn) (a b : Nat) : Nat :=
  ((idxIn (a, b) (poiList g)).map (· + 1)).getD 0

/-- The segment label offset by the number of points, written into
all_labels on the broken skeleton (make_neuron_graph, line 629). -/
def segVal (g : GraphIn) (a b : Nat) : Nat :=
  if segLabel g a b = 0 then 0 else segLabel g a b + nPoints g

/-- all_labels: vertex indexes 1..n at the points of interest, segment
labels offset by n elsewhere on the broken skeleton, 0 on background and
outside the image (make_neuron_graph, lines 627-630; the one-pixel zero
padding of the source becomes the out-of-range default here). -/
def lookupAll (g : GraphIn) (i j : Int) : Nat :=
  if 0 ≤ i ∧ 0 ≤ j then
    if vtxVal g i.toNat j.toNat ≠ 0 then vtxVal g i.toNat j.toNat
    else segVal g i.toNat j.toNat
  else 0

/-- The all_labels value seen from point of interest k (0-based) in
direction d. -/
def rawVal (g : GraphIn) (k : Nat) (d : Int × Int) : Nat :=
  lookupAll g ((((poiList g).getD k (0, 0)).1 : Int) + d.1)
    ((((poiList g).getD k (0, 0)).2 : Int) + d.2)

/-- The stacked 8-neighbor scan over all points of interest with the
background zeros removed (make_neuron_graph, lines 634-645). -/
def rawPairs (g : GraphIn) : List (Nat × Nat) :=
  nbrOffsets.flatMap fun d =>
    (List.range (nPoints g)).filterMap fun k =>
      if rawVal g k d ≠ 0 then some (k + 1, rawVal g k d) else none

/-- Vertex-to-vertex adjacencies: p2 a vertex index and p1 < p2
(make_neuron_graph, lines 649-650). -/
def vvPairs (g : GraphIn) : List (Nat × Nat) :=
  (rawPairs g).filter fun pr => decide (pr.2 ≤ nPoints g) && decide (pr.1 < pr.2)

def poiCoord (g : GraphIn) (k : Nat) : Nat × Nat := (poiList g).getD (k - 1) (0, 0)

def vLabel (g : GraphIn) (k : Nat) : Nat :=
  getN g.lbl (poiCoord g k).1 (poiCoord g k).2

def vIntensity (g : GraphIn) (k : Nat) : Int :=
  getZ g.img (poiCoord g k).1 (poiCoord g k).2

/-- same_labels: keep a vertex-to-vertex candidate only when both points
carry the same skeleton label (make_neuron_graph, lines 654-657). -/
def vvSame (g : GraphIn) : List (Nat × Nat) :=
  (vvPairs g).filter fun pr => decide (vLabel g pr.1 = vLabel g pr.2)

/-- The vertex-to-vertex edge candidates: length 2, magnitude the two
vertex intensities (make_neuron_graph, lines 678-680). -/
def vvCands (g : GraphIn) : List Row :=
  (vvSame g).map fun pr => ⟨pr.1, pr.2, 2, vIntensity g pr.1 + vIntensity g pr.2⟩

/-- The vertex-to-segment incidences (make_neuron_graph, lines 661-662). -/
def peList (g : GraphIn) : List (Nat × Nat) :=
  (rawPairs g).filter fun pr => decide (nPoints g < pr.2)

def segPresent (g : GraphIn) : List Nat := ((peList g).map Prod.snd).dedup

def insertLe (x : Nat) : List Nat → List Nat
  | [] => [x]
  | y :: l => if x ≤ y then x :: y :: l else y :: insertLe x l

def sortNat : List Nat → List Nat
  | [] => []
  | x :: l => insertLe x (sortNat l)

def touches (g : GraphIn) (e : Nat) : List Nat :=
  sortNat ((((peList g).filter fun pr => decide (pr.2 = e)).map Prod.fst).dedup)

def allPairs : List Nat → List (Nat × Nat)
  | [] => []
  | x :: l => (l.map fun y => (x, y)) ++ allPairs l

/-- Modelled from the spec: morph.pairwise_permutations (outside src/) —
for each labeled segment, all pairwise combinations of the points of
interest touching it become edge candidates carrying that segment's
length and magnitude (make_neuron_graph, lines 670-687). -/
def vsCands (g : GraphIn) : List Row :=
  (segPresent g).flatMap fun e =>
    (allPairs (touches g e)).map fun pr =>
      ⟨pr.1, pr.2, segLen g (e - nPoints g) + 2,
        vIntensity g pr.1 + vIntensity g pr.2 + segMag g (e - nPoints g)⟩

/-! ## Merge and deduplicate (make_neuron_graph, lines 691-710)

np.lexsort((lengths, v1, v2)) sorts with v2 as the primary key, v1 as the
secondary key and length as the tertiary key; to_keep then keeps a row
exactly when its (v1, v2) pair differs from the previous sorted row's. -/

def pairLt (a b : Row) : Prop := a.v2 < b.v2 ∨ (a.v2 = b.v2 ∧ a.v1 < b.v1)

instance (a b : Row) : Decidable (pairLt a b) := by
  unfold pairLt
  infer_instance

def pairEqB (a b : Row) : Bool := decide (a.v1 = b.v1) && decide (a.v2 = b.v2)

/-- The lexsort order on (v2, v1, length). -/
def edgeLe (a b : Row) : Bool :=
  decide (pairLt a b) || (pairEqB a b && decide (a.len ≤ b.len))

def insertBy (le : Row → Row → Bool) (x : Row) : List Row → List Row
  | [] => [x]
  | y :: l => if le x y then x :: y :: l else y :: insertBy le x l

def sortBy (le : Row → Row → Bool) : List Row → List Row
  | [] => []
  | x :: l => insertBy le x (sortBy le l)

def keepFirstAux (prev : Row) : List Row → List Row
  | [] => []
  | x :: l => if pairEqB x prev then keepFirstAux x l else x :: keepFirstAux x l

def keepFirst : List Row → List Row
  | [] => []
  | x :: l => x :: keepFirstAux x l

/-- Sort by (v2, v1, length) and keep the first row of every (v1, v2)
run (make_neuron_graph, lines 698-710). -/
def dedup (l : List Row) : List Row := keepFirst (sortBy edgeLe l)

/-- The deduplicated edge table (make_neuron_graph, lines 691-717). -/
def edgeTable (g : GraphIn) : List Row := dedup (vvCands g ++ vsCands g)

/-- make_neuron_graph as called from run lines 342-347: the cleaned
skeleton, dlabels as the skeleton labels, the trunk mask, the
branch-points-minus-trunks mask and the raw endpoint mask. -/
def graphIn (c : ClassifyIn) : GraphIn :=
  ⟨cleanSkel c, c.dl, trunkMask c, branchMask c, endPts c, c.img⟩

/-! ## Properties of the sort-and-keep-first deduplication -/

theorem pairEqB_iff {a b : Row} : pairEqB a b = true ↔ (a.v1 = b.v1 ∧ a.v2 = b.v2) := by
  unfold pairEqB
  simp

theorem edgeLe_iff {a b : Row} :
    edgeLe a b = true ↔
      (a.v2 < b.v2 ∨ (a.v2 = b.v2 ∧ a.v1 < b.v1) ∨
        (a.v1 = b.v1 ∧ a.v2 = b.v2 ∧ a.len ≤ b.len)) := by
  unfold edgeLe pairEqB pairLt
  simp
  tauto

theorem edgeLe_total (a b : Row) : edgeLe a b = true ∨ edgeLe b a = true := by
  rw [edgeLe_iff, edgeLe_iff]
  omega

theorem edgeLe_trans {a b c : Row} (h1 : edgeLe a b = true) (h2 : edgeLe b c = true) :
    edgeLe a c = true := by
  rw [edgeLe_iff] at *
  omega

theorem pairLt_trans {a b c : Row} (h1 : pairLt a b) (h2 : pairLt b c) : pairLt a c := by
  unfold pairLt at *
  omega

theorem insertBy_perm (le : Row → Row → Bool) (x : Row) (l : List Row) :
    List.Perm (insertBy le x l) (x :: l) := by
  induction l with
  | nil => exact List.Perm.refl _
  | cons y l ih =>
    unfold insertBy
    by_cases h : le x y
    · rw [if_pos h]
    · rw [if_neg h]
      exact (ih.cons y).trans (List.Perm.swap x y l)

theorem sortBy_perm (le : Row → Row → Bool) (l : List Row) :
    List.Perm (sortBy le l) l := by
  induction l with
  | nil => exact List.Perm.refl _
  | cons x l ih => exact (insertBy_perm le x _).trans (ih.cons x)

theorem mem_sortBy {le : Row → Row → Bool} {l : List Row} {x : Row} :
    x ∈ sortBy le l ↔ x ∈ l := (sortBy_perm le l).mem_iff

theorem pairwise_insertBy {x : Row} {l : List Row}
    (h : l.Pairwise fun a b => edgeLe a b = true) :
    (insertBy edgeLe x l).Pairwise fun a b => edgeLe a b = true := by
  induction l with
  | nil => simp [insertBy]
  | cons y l ih =>
    rcases List.pairwise_cons.mp h with ⟨hy, hl⟩
    unfold insertBy
    by_cases hxy : edgeLe x y = true
    · rw [if_pos hxy]
      refine List.pairwise_cons.mpr ⟨?_, h⟩
      intro b hb
      rcases List.mem_cons.mp hb with rfl | hb
      · exact hxy
      · exact edgeLe_trans hxy (hy b hb)
    · rw [if_neg hxy]
      refine List.pairwise_cons.mpr ⟨?_, ih hl⟩
      intro b hb
      rcases List.mem_cons.mp ((insertBy_perm edgeLe x l).mem_iff.mp hb) with rfl | hb2
      · rcases edgeLe_total y b with hyb | hby
        · exact hyb
        · exact absurd hby hxy
      · exact hy b hb2

theorem sortBy_pairwise (l : List Row) :
    (sortBy edgeLe l).Pairwise fun a b => edgeLe a b = true := by
  induction l with
  | nil => simp [sortBy]
  | cons x l ih => exact pairwise_insertBy ih

theorem keepFirstAux_subset {l : List Row} {prev r : Row}
    (h : r ∈ keepFirstAux prev l) : r ∈ l := by
  induction l generalizing prev with
  | nil => simp [keepFirstAux] at h
  | cons x l ih =>
    unfold keepFirstAux at h
    by_cases hx : pairEqB x prev = true
    · rw [if_pos hx] at h
      exact List.mem_cons_of_mem x (ih h)
    · rw [if_neg hx] at h
      rcases List.mem_cons.mp h with rfl | h
      · exact List.mem_cons_self _ _
      · exact List.mem_cons_of_mem x (ih h)

theorem keepFirst_subset {l : List Row} {r : Row} (h : r ∈ keepFirst l) : r ∈ l := by
  cases l with
  | nil => simp [keepFirst] at h
  | cons x l =>
    unfold keepFirst at h
    rcases List.mem_cons.mp h with rfl | h
    · exact List.mem_cons_self _ _
    · exact List.mem_cons_of_mem x (keepFirstAux_subset h)

theorem keepFirstAux_spec {l : List Row} {prev : Row}
    (hp : (prev :: l).Pairwise fun a b => edgeLe a b = true) :
    ∀ r ∈ keepFirstAux prev l, pairLt prev r ∧
      ∀ c ∈ l, c.v1 = r.v1 → c.v2 = r.v2 → r.len ≤ c.len := by
  induction l generalizing prev with
  | nil => intro r hr; simp [keepFirstAux] at hr
  | cons y l ih =>
    intro r hr
    rcases List.pairwise_cons.mp hp with ⟨hprev, hyl⟩
    have hpy : edgeLe prev y = true := hprev y (List.mem_cons_self y l)
    unfold keepFirstAux at hr
    by_cases hy : pairEqB y prev = true
    · rw [if_pos hy] at hr
      have hres := ih hyl r hr
      have hkey := pairEqB_iff.mp hy
      refine ⟨?_, ?_⟩
      · have := hres.1
        unfold pairLt at *
        omega
      · intro c hc h1 h2
        rcases List.mem_cons.mp hc with rfl | hc
        · exfalso
          have := hres.1
          unfold pairLt at this
          omega
        · exact hres.2 c hc h1 h2
    · rw [if_neg hy] at hr
      have hkeys : ¬(y.v1 = prev.v1 ∧ y.v2 = prev.v2) := fun hk => hy (pairEqB_iff.mpr hk)
      have hpy' : pairLt prev y := by
        rw [edgeLe_iff] at hpy
        unfold pairLt
        omega
      rcases List.mem_cons.mp hr with rfl | hr
      · refine ⟨hpy', ?_⟩
        intro c hc h1 h2
        rcases List.mem_cons.mp hc with rfl | hc
        · exact le_refl _
        · have hyc := (List.pairwise_cons.mp hyl).1 c hc
          rw [edgeLe_iff] at hyc
          omega
      · have hres := ih hyl r hr
        refine ⟨pairLt_trans hpy' hres.1, ?_⟩
        intro c hc h1 h2
        rcases List.mem_cons.mp hc with rfl | hc
        · exfalso
          have := hres.1
          unfold pairLt at this
          omega
        · exact hres.2 c hc h1 h2

theorem keepFirstAux_pairLt {l : List Row} {prev : Row}
    (hp : (prev :: l).Pairwise fun a b => edgeLe a b = true) :
    (prev :: keepFirstAux prev l).Pairwise pairLt := by
  induction l generalizing prev with
  | nil => simp [keepFirstAux]
  | cons y l ih =>
    rcases List.pairwise_cons.mp hp with ⟨hprev, hyl⟩
    have hpy : edgeLe prev y = true := hprev y (List.mem_cons_self y l)
    unfold keepFirstAux
    by_cases hy : pairEqB y prev = true
    · rw [if_pos hy]
      have hD := ih hyl
      rcases List.pairwise_cons.mp hD with ⟨hyall, htail⟩
      refine List.pairwise_cons.mpr ⟨?_, htail⟩
      intro b hb
      have := hyall b hb
      have hkey := pairEqB_iff.mp hy
      unfold pairLt at *
      omega
    · rw [if_neg hy]
      have hkeys : ¬(y.v1 = prev.v1 ∧ y.v2 = prev.v2) := fun hk => hy (pairEqB_iff.mpr hk)
      have hpy' : pairLt prev y := by
        rw [edgeLe_iff] at hpy
        unfold pairLt
        omega
      have hD := ih hyl
      rcases List.pairwise_cons.mp hD with ⟨hyall, _⟩
      refine List.pairwise_cons.mpr ⟨?_, hD⟩
      intro b hb
      rcases List.mem_cons.mp hb with rfl | hb
      · exact hpy'
      · exact pairLt_trans hpy' (hyall b hb)

theorem keepFirst_pairLt {l : List Row} (hp : l.Pairwise fun a b => edgeLe a b = true) :
    (keepFirst l).Pairwise pairLt := by
  cases l with
  | nil => simp [keepFirst]
  | cons x l => exact keepFirstAux_pairLt hp

theorem keepFirst_spec {l : List Row} (hp : l.Pairwise fun a b => edgeLe a b = true) :
    ∀ r ∈ keepFirst l, ∀ c ∈ l, c.v1 = r.v1 → c.v2 = r.v2 → r.len ≤ c.len := by
  cases l with
  | nil => intro r hr; simp [keepFirst] at hr
  | cons x l =>
    intro r hr c hc h1 h2
    rcases List.pairwise_cons.mp hp with ⟨hx, _⟩
    unfold keepFirst at hr
    rcases List.mem_cons.mp hr with rfl | hr
    · rcases List.mem_cons.mp hc with rfl | hc
      · exact le_refl _
      · have := hx c hc
        rw [edgeLe_iff] at this
        omega
    · have hres := keepFirstAux_spec hp r hr
      rcases List.mem_cons.mp hc with rfl | hc
      · exfalso
        have := hres.1
        unfold pairLt at this
        omega
      · exact hres.2 c hc h1 h2

theorem keepFirstAux_covers {l : List Row} {prev : Row} :
    ∀ c ∈ l, (c.v1 = prev.v1 ∧ c.v2 = prev.v2) ∨
      ∃ r ∈ keepFirstAux prev l, r.v1 = c.v1 ∧ r.v2 = c.v2 := by
  induction l generalizing prev with
  | nil => simp
  | cons y l ih =>
    intro c hc
    unfold keepFirstAux
    by_cases hy : pairEqB y prev = true
    · rw [if_pos hy]
      have hkey := pairEqB_iff.mp hy
      rcases List.mem_cons.mp hc with rfl | hc
      · left
        exact hkey
      · rcases ih c hc with h | h
        · left
          exact ⟨h.1.trans hkey.1, h.2.trans hkey.2⟩
        · right
          exact h
    · rw [if_neg hy]
      rcases List.mem_cons.mp hc with rfl | hc
      · right
        exact ⟨c, List.mem_cons_self _ _, rfl, rfl⟩
      · rcases ih c hc with h | h
        · right
          exact ⟨y, List.mem_cons_self _ _, h.1.symm, h.2.symm⟩
        · rcases h with ⟨r, hr, h1, h2⟩
          right
          exact ⟨r, List.mem_cons_of_mem y hr, h1, h2⟩

theorem keepFirst_covers {l : List Row} :
    ∀ c ∈ l, ∃ r ∈ keepFirst l, r.v1 = c.v1 ∧ r.v2 = c.v2 := by
  cases l with
  | nil => simp
  | cons x l =>
    intro c hc
    unfold keepFirst
    rcases List.mem_cons.mp hc with rfl | hc
    · exact ⟨c, List.mem_cons_self _ _, rfl, rfl⟩
    · rcases keepFirstAux_covers c hc with h | h
      · exact ⟨x, List.mem_cons_self _ _, h.1.symm, h.2.symm⟩
      · rcases h with ⟨r, hr, h1, h2⟩
        exact ⟨r, List.mem_cons_of_mem x hr, h1, h2⟩

theorem pairwise_filter_le_one {l : List Row} (hp : l.Pairwise pairLt) (a b : Nat) :
    (l.filter fun x => decide (x.v1 = a) && decide (x.v2 = b)).length ≤ 1 := by
  induction l with
  | nil => simp
  | cons x l ih =>
    rcases List.pairwise_cons.mp hp with ⟨hx, hl⟩
    rw [List.filter_cons]
    by_cases hxa : (decide (x.v1 = a) && decide (x.v2 = b)) = true
    · rw [if_pos hxa]
      have hnil : (l.filter fun y => decide (y.v1 = a) && decide (y.v2 = b)) = [] := by
        rw [List.filter_eq_nil_iff]
        intro y hy
        have hlt := hx y hy
        simp only [Bool.and_eq_true, decide_eq_true_eq] at hxa ⊢
        unfold pairLt at hlt
        omega
      rw [hnil]
      simp
    · rw [if_neg hxa]
      exact ih hl

theorem dedup_subset {l : List Row} {r : Row} (h : r ∈ dedup l) : r ∈ l :=
  mem_sortBy.mp (keepFirst_subset h)

theorem dedup_count (l : List Row) (a b : Nat) :
    ((dedup l).filter fun x => decide (x.v1 = a) && decide (x.v2 = b)).length ≤ 1 :=
  pairwise_filter_le_one (keepFirst_pairLt (sortBy_pairwise l)) a b

theorem dedup_min {l : List Row} {r : Row} (h : r ∈ dedup l) :
    ∀ c ∈ l, c.v1 = r.v1 → c.v2 = r.v2 → r.len ≤ c.len := by
  intro c hc h1 h2
  exact keepFirst_spec (sortBy_pairwise l) r h c (mem_sortBy.mpr hc) h1 h2

theorem dedup_covers {l : List Row} {c : Row} (hc : c ∈ l) :
    ∃ r ∈ dedup l, r.v1 = c.v1 ∧ r.v2 = c.v2 :=
  keepFirst_covers c (mem_sortBy.mpr hc)

/-! ## Provenance of the edge candidates -/

theorem idxIn_lt {p : Nat × Nat} {l : List (Nat × Nat)} {k : Nat}
    (h : idxIn p l = some k) : k < l.length := by
  induction l generalizing k with
  | nil => simp [idxIn] at h
  | cons q l ih =>
    unfold idxIn at h
    by_cases hq : q = p
    · rw [if_pos hq] at h
      cases h
      simp
    · rw [if_neg hq] at h
      rcases Option.map_eq_some'.mp h with ⟨k2, hk2, rfl⟩
      have := ih hk2
      simp only [List.length_cons]
      omega

theorem vtxVal_le (g : GraphIn) (a b : Nat) : vtxVal g a b ≤ nPoints g := by
  unfold vtxVal nPoints
  cases hidx : idxIn (a, b) (poiList g) with
  | none => simp
  | some k =>
    have := idxIn_lt hidx
    simp only [Option.map_some', Option.getD_some]
    omega

theorem width_le_of_rows {g : List (List α)} {w : Nat}
    (h : ∀ r ∈ g, r.length ≤ w) : width g ≤ w := by
  unfold width
  induction g with
  | nil => simp
  | cons a l ih =>
    simp only [List.map_cons, List.foldr_cons]
    exact max_le (h a (List.mem_cons_self _ _))
      (ih fun r hr => h r (List.mem_cons_of_mem a hr))

theorem width_mkG_le (h w : Nat) (f : Nat → Nat → α) : width (mkG h w f) ≤ w := by
  refine width_le_of_rows ?_
  intro r hr
  unfold mkG at hr
  rcases List.mem_map.mp hr with ⟨i, _, rfl⟩
  simp

theorem one_le_sumOver {h w : Nat} {f : Nat → Nat → Nat} {a b : Nat}
    (ha : a < h) (hb : b < w) (hf : 1 ≤ f a b) : 1 ≤ sumOver h w f := by
  unfold sumOver
  have h1 : 1 ≤ ∑ j ∈ Finset.range w, f a j :=
    le_trans hf (Finset.single_le_sum (fun i _ => Nat.zero_le (f a i))
      (Finset.mem_range.mpr hb))
  have h2 := @Finset.single_le_sum ℕ ℕ _ (fun i => ∑ j ∈ Finset.range w, f i j)
    (Finset.range h) (fun i _ => Nat.zero_le _) a (Finset.mem_range.mpr ha)
  simp only [] at h2
  omega

theorem segLabel_broken {g : GraphIn} {a b : Nat} (h : segLabel g a b ≠ 0) :
    getB (broken g) a b = true := by
  unfold segLabel at h
  by_cases hb : getB (broken g) a b = true
  · exact hb
  · rw [if_neg (by simpa using hb)] at h
    exact absurd rfl h

theorem segLen_pos {g : GraphIn} {a b : Nat} (h : segLabel g a b ≠ 0) :
    1 ≤ segLen g (segLabel g a b) := by
  have hbr := segLabel_broken h
  have hb := getB_bounds hbr
  have hh : a < gh g := by
    have := hb.1
    unfold broken at this
    rwa [height_mkG] at this
  have hw : b < gw g := by
    have := hb.2
    unfold broken at this
    exact lt_of_lt_of_le this (width_mkG_le _ _ _)
  exact one_le_sumOver hh hw (by simp)

theorem segPresent_spec {g : GraphIn} {e : Nat} (he : e ∈ segPresent g) :
    nPoints g < e ∧ ∃ a b : Nat, segLabel g a b ≠ 0 ∧ segLabel g a b + nPoints g = e := by
  unfold segPresent at he
  rcases List.mem_map.mp (List.mem_dedup.mp he) with ⟨pr, hpr, rfl⟩
  unfold peList at hpr
  have hgt := (List.mem_filter.mp hpr).2
  simp only [decide_eq_true_eq] at hgt
  have hraw := (List.mem_filter.mp hpr).1
  refine ⟨hgt, ?_⟩
  unfold rawPairs at hraw
  rcases List.mem_flatMap.mp hraw with ⟨d, _, hmem⟩
  rcases List.mem_filterMap.mp hmem with ⟨k, _, hv⟩
  by_cases hz : rawVal g k d ≠ 0
  · rw [if_pos hz] at hv
    cases hv
    unfold rawVal lookupAll at hgt hz ⊢
    by_cases hc : (0 : Int) ≤ (((poiList g).getD k (0, 0)).1 : Int) + d.1 ∧
        (0 : Int) ≤ (((poiList g).getD k (0, 0)).2 : Int) + d.2
    · rw [if_pos hc] at hgt hz ⊢
      by_cases hvz : vtxVal g ((((poiList g).getD k (0, 0)).1 : Int) + d.1).toNat
          ((((poiList g).getD k (0, 0)).2 : Int) + d.2).toNat ≠ 0
      · rw [if_pos hvz] at hgt
        exact absurd hgt (by
          have := vtxVal_le g ((((poiList g).getD k (0, 0)).1 : Int) + d.1).toNat
            ((((poiList g).getD k (0, 0)).2 : Int) + d.2).toNat
          omega)
      · rw [if_neg hvz] at hgt ⊢
        unfold segVal at hgt ⊢
        by_cases hsz : segLabel g ((((poiList g).getD k (0, 0)).1 : Int) + d.1).toNat
            ((((poiList g).getD k (0, 0)).2 : Int) + d.2).toNat = 0
        · rw [if_pos hsz] at hgt
          omega
        · rw [if_neg hsz]
          exact ⟨_, _, hsz, rfl⟩
    · rw [if_neg hc] at hgt
      omega
  · rw [if_neg hz] at hv
    cases hv

theorem vvCands_len {g : GraphIn} {r : Row} (h : r ∈ vvCands g) : r.len = 2 := by
  unfold vvCands at h
  rcases List.mem_map.mp h with ⟨pr, _, rfl⟩
  rfl

theorem vsCands_len {g : GraphIn} {r : Row} (h : r ∈ vsCands g) : 3 ≤ r.len := by
  unfold vsCands at h
  rcases List.mem_flatMap.mp h with ⟨e, he, h2⟩
  rcases List.mem_map.mp h2 with ⟨pr, _, rfl⟩
  rcases segPresent_spec he with ⟨hlt, a, b, hne, heq⟩
  have hlab : segLabel g a b = e - nPoints g := by omega
  have hpos := segLen_pos hne
  rw [hlab] at hpos
  simp only []
  omega

/-! ## Claim theorems about the graph builder -/

/-- C4: after stacking the vertex-to-vertex and vertex-to-segment edge
candidates, sorting by (second vertex, first vertex, length) and keeping
only the first candidate per vertex pair, the output edge table has at
most one edge for any vertex pair (a, b), that edge is one of the raw
candidates, and its length is minimal among all raw candidates for that
pair. -/
theorem C4_dedup_correct (g : GraphIn) (a b : Nat) (r : Row)
    (hr : r ∈ edgeTable g) (h1 : r.v1 = a) (h2 : r.v2 = b) :
    ((edgeTable g).filter fun x => decide (x.v1 = a) && decide (x.v2 = b)).length ≤ 1 ∧
    r ∈ vvCands g ++ vsCands g ∧
    ∀ c ∈ vvCands g ++ vsCands g, c.v1 = a → c.v2 = b → r.len ≤ c.len := by
  refine ⟨dedup_count (vvCands g ++ vsCands g) a b, dedup_subset hr, ?_⟩
  intro c hc hc1 hc2
  exact dedup_min hr c hc (by omega) (by omega)

/-- A two-by-two image where vertices 1 and 2 are directly adjacent and
also joined through a one-pixel skeleton segment, giving two parallel
candidates for the pair (1, 2) of lengths 2 and 3. -/
def g4 : GraphIn :=
  ⟨[[true, true], [true, false]],
   [[1, 1], [1, 0]],
   [[false, false], [false, false]],
   [[false, false], [false, false]],
   [[true, true], [false, false]],
   [[0, 0], [0, 0]]⟩

/-- Witness for C4 at g4: the surviving edge for the pair (1, 2) is a raw
candidate and is no longer than the parallel segment-mediated
candidate. -/
theorem C4_dedup_correct_witness :
    (⟨1, 2, 2, 0⟩ : Row) ∈ vvCands g4 ++ vsCands g4 ∧
    (⟨1, 2, 2, 0⟩ : Row).len ≤ (⟨1, 2, 3, 0⟩ : Row).len := by
  have h := C4_dedup_correct g4 1 2 ⟨1, 2, 2, 0⟩ (by decide) rfl rfl
  exact ⟨h.2.1, h.2.2 ⟨1, 2, 3, 0⟩ (by decide) rfl rfl⟩

/-- C6: every edge of the output edge table has length at least 2; its
length is exactly 2 precisely when it is a direct vertex-to-vertex
adjacency candidate, and every segment-mediated candidate has length at
least 3. -/
theorem C6_edge_length (g : GraphIn) (r : Row) (hr : r ∈ edgeTable g) :
    2 ≤ r.len ∧ (r.len = 2 ↔ r ∈ vvCands g) ∧ (r ∈ vsCands g → 3 ≤ r.len) := by
  have hstack := dedup_subset hr
  rcases List.mem_append.mp hstack with h | h
  · have h2 := vvCands_len h
    exact ⟨by omega, ⟨fun _ => h, fun _ => h2⟩, fun hs => vsCands_len hs⟩
  · have h3 := vsCands_len h
    refine ⟨by omega, ⟨?_, fun hv => vvCands_len hv⟩, fun hs => vsCands_len hs⟩
    intro h2
    omega

/-- A single row with two directly adjacent endpoint vertices of the same
seed label. -/
def g6 : GraphIn :=
  ⟨[[true, true]],
   [[1, 1]],
   [[false, false]],
   [[false, false]],
   [[true, true]],
   [[0, 0]]⟩

/-- Witness for C6 at g6: the direct-adjacency edge is in the output and
has length 2. -/
theorem C6_edge_length_witness :
    (⟨1, 2, 2, 0⟩ : Row) ∈ edgeTable g6 ∧ 2 ≤ (⟨1, 2, 2, 0⟩ : Row).len :=
  ⟨by decide, (C6_edge_length g6 ⟨1, 2, 2, 0⟩ (by decide)).1⟩

/-- C7: a vertex-to-vertex adjacency candidate is retained only when both
points of interest carry the same nearest-seed label, so no retained
vertex-to-vertex edge connects differently labeled points. -/
theorem C7_same_label (g : GraphIn) (r : Row) (hr : r ∈ vvCands g) :
    vLabel g r.v1 = vLabel g r.v2 := by
  unfold vvCands at hr
  rcases List.mem_map.mp hr with ⟨pr, hpr, rfl⟩
  unfold vvSame at hpr
  have h := (List.mem_filter.mp hpr).2
  simp only [decide_eq_true_eq] at h
  exact h

/-- Witness for C7 at g6. -/
theorem C7_same_label_witness : vLabel g6 1 = vLabel g6 2 :=
  C7_same_label g6 ⟨1, 2, 2, 0⟩ (by decide)

/-- A single row holding vertex 1 (label 1) and vertex 2 (label 2) joined
by a three-pixel skeleton segment. -/
def g10 : GraphIn :=
  ⟨[[true, true, true, true, true]],
   [[1, 1, 1, 2, 2]],
   [[false, false, false, false, false]],
   [[false, false, false, false, false]],
   [[true, false, false, false, true]],
   [[0, 0, 0, 0, 0]]⟩

/-- C10: the same-seed-label restriction applies only to direct
vertex-to-vertex candidates: at g10 the output edge table holds exactly
one segment-mediated edge, and its two vertices carry different
nearest-seed labels. -/
theorem C10_cross_seed_segment_edge :
    edgeTable g10 = [⟨1, 2, 5, 0⟩] ∧
    (⟨1, 2, 5, 0⟩ : Row) ∈ vsCands g10 ∧
    vvCands g10 = [] ∧
    vLabel g10 1 = 1 ∧ vLabel g10 2 = 2 := by
  decide

/-! ## Access lemmas for built grids -/

theorem getB_mkG (h w : Nat) (f : Nat → Nat → Bool) (i j : Nat) :
    getB (mkG h w f) i j = if i < h ∧ j < w then f i j else false :=
  cell_mkG false h w f i j

theorem getN_mkG (h w : Nat) (f : Nat → Nat → Nat) (i j : Nat) :
    getN (mkG h w f) i j = if i < h ∧ j < w then f i j else 0 :=
  cell_mkG 0 h w f i j

theorem width_mkG_pos (h w : Nat) (f : Nat → Nat → α) (hh : 0 < h) :
    width (mkG h w f) = w := by
  refine le_antisymm (width_mkG_le h w f) ?_
  have hmem : (List.range w).map (f 0) ∈ mkG h w f :=
    List.mem_map.mpr ⟨0, List.mem_range.mpr hh, rfl⟩
  have := length_le_width hmem
  simpa using this

/-! ## Input alignment (run, lines 202-206) and parameter validation -/

/-- Modelled from the source's fallback (run, lines 202-206): when the
label image cannot be cropped to the skeleton's shape, cpo.size_similarly
(outside src/) resizes it and `labels[~m1] = 0` zeroes every position the
original label image did not cover, so the result is the label image
cropped or zero-padded to the skeleton's shape. -/
def padCrop (h w : Nat) (l : NImg) : NImg := mkG h w fun i j => getN l i j

/-- The alignment step of run lines 202-206: the try/except always
produces shape-matched labels and never raises. -/
def alignStep (h w : Nat) (l : NImg) : Except String NImg :=
  Except.ok (padCrop h w l)

def lblC2 : NImg := [[7]]

/-- C2 counterexample: a 2x2 skeleton with a 1x1 label image is a
dimension mismatch, yet the alignment step succeeds with zero-padded
labels instead of failing, and the computation continues. -/
theorem C2_counterexample :
    (2, 2) ≠ (height lblC2, width lblC2) ∧
    alignStep 2 2 lblC2 = Except.ok [[7, 0], [0, 0]] :=
  ⟨by decide, by rfl⟩

/-- C2 amended: on any dimension mismatch the seed labels are cropped or
zero-padded to the skeleton's shape and processing continues; no failure
condition is produced. -/
theorem C2_amended (h w : Nat) (l : NImg) (i j : Nat) (hi : i < h) (hj : j < w) :
    alignStep h w l = Except.ok (padCrop h w l) ∧
    height (padCrop h w l) = h ∧
    (0 < h → width (padCrop h w l) = w) ∧
    getN (padCrop h w l) i j = getN l i j := by
  refine ⟨rfl, height_mkG _ _ _, fun hh => width_mkG_pos _ _ _ hh, ?_⟩
  unfold padCrop
  rw [getN_mkG, if_pos ⟨hi, hj⟩]

/-- Witness for C2 amended at the mismatched concrete input. -/
theorem C2_amended_witness :
    alignStep 2 2 lblC2 = Except.ok (padCrop 2 2 lblC2) ∧
    height (padCrop 2 2 lblC2) = 2 ∧
    (0 < 2 → width (padCrop 2 2 lblC2) = 2) ∧
    getN (padCrop 2 2 lblC2) 1 1 = getN lblC2 1 1 :=
  C2_amended 2 2 lblC2 1 1 (by decide) (by decide)

inductive ParamError where
  | invalidParameter
deriving DecidableEq, Repr

/-- Modelled from the spec: the hole-size setting is declared with a
minimum of 1 (create_settings, lines 102-106, cps.Integer minval = 1) and
the settings framework (outside src/) rejects any smaller value, such as a
negative area, with an InvalidParameter condition at the module boundary
before any grid computation begins. -/
def checkMaxHoleSize (v : Int) : Except ParamError Int :=
  if v < 1 then Except.error ParamError.invalidParameter else Except.ok v

/-- The guarded invocation: the per-seed counts are computed only when the
hole-size parameter passes validation. -/
def runChecked (v : Int) (c : ClassifyIn) (s : Nat) :
    Except ParamError (Nat × Nat × Nat) :=
  (checkMaxHoleSize v).map fun _ => (trunkCounts c s, branchCounts c s, endCounts c s)

/-- C9: a malformed hole-size parameter (any value below the declared
minimum of 1, for example a negative area) makes the guarded invocation
fail with InvalidParameter and no counts are produced. -/
theorem C9_invalid_param (v : Int) (c : ClassifyIn) (s : Nat) (hv : v < 1) :
    runChecked v c s = Except.error ParamError.invalidParameter := by
  unfold runChecked checkMaxHoleSize
  rw [if_pos hv]
  rfl

/-- Witness for C9 with a negative hole size. -/
theorem C9_invalid_param_witness :
    runChecked (-5) ⟨[], [], [], [], [], 0⟩ 1 =
      Except.error ParamError.invalidParameter :=
  C9_invalid_param (-5) ⟨[], [], [], [], [], 0⟩ 1 (by decide)

/-! ## Claim theorems about the classification stage -/

theorem branchTable_pos {n : Nat} (h : 0 < branchTable n) : 0 < n := by
  rcases n with _ | n
  · simp [branchTable] at h
  · omega

theorem branchings_skel {g : BImg} {i j : Nat} (h : 0 < branchings g i j) :
    getB g i j = true := by
  unfold branchings at h
  by_cases hb : getB g i j = true
  · exact hb
  · rw [if_neg (by simpa using hb)] at h
    omega

/-- A pixel with positive mapped branching count lies on the cleaned
skeleton, hence carries a nonzero propagation label. -/
theorem branchingCounts_pos {c : ClassifyIn} {i j : Nat}
    (h : 0 < getN (branchingCounts c) i j) : getN c.dl i j ≠ 0 := by
  unfold branchingCounts at h
  rw [getN_mkG] at h
  by_cases hij : i < ch c ∧ j < cw c
  · rw [if_pos hij] at h
    by_cases hd : getB (dilatedSkel c) i j = true
    · rw [if_pos hd] at h
      have hb := branchTable_pos h
      have hcs := branchings_skel hb
      unfold cleanSkel at hcs
      rw [getB_mkG, if_pos hij] at hcs
      simp only [Bool.and_eq_true, decide_eq_true_eq] at hcs
      exact hcs.2
    · rw [if_neg hd] at h
      omega
  · rw [if_neg hij] at h
    omega

/-- C5: for an input with at least one seed label, the per-seed trunk
count sums the mapped branching-degree values over exactly the pixels
whose nearest-seed label is that seed and whose propagation distance is at
most 1.5, and a pixel is a trunk exactly when its mapped branching degree
is positive and its propagation distance is at most 1.5. -/
theorem C5_trunks (c : ClassifyIn) (s i j : Nat)
    (hn : 1 ≤ c.nLabels) (hs1 : 1 ≤ s) (hs2 : s ≤ c.nLabels) :
    trunkCounts c s =
      sumOver (ch c) (cw c) (fun a b =>
        if getN c.dl a b = s ∧ getQ c.dist a b ≤ threeHalves
        then getN (branchingCounts c) a b else 0) ∧
    (getB (trunkMask c) i j = true ↔
      (0 < getN (branchingCounts c) i j ∧ getQ c.dist i j ≤ threeHalves)) := by
  constructor
  · unfold trunkCounts sumOver
    apply Finset.sum_congr rfl
    intro a _
    apply Finset.sum_congr rfl
    intro b _
    beta_reduce
    unfold nearbyLabels
    by_cases hd : threeHalves < getQ c.dist a b
    · rw [if_pos hd, if_neg (by omega),
        if_neg (fun hcon => absurd hcon.2 (not_le.mpr hd))]
    · rw [if_neg hd]
      have hle := le_of_not_lt hd
      by_cases he : getN c.dl a b = s
      · rw [if_pos he, if_pos ⟨he, hle⟩]
      · rw [if_neg he, if_neg (fun hcon => he hcon.1)]
  · unfold trunkMask
    rw [getB_mkG]
    by_cases hij : i < ch c ∧ j < cw c
    · rw [if_pos hij]
      simp only [Bool.and_eq_true, decide_eq_true_eq]
      constructor
      · rintro ⟨h1, h2⟩
        refine ⟨h1, ?_⟩
        unfold nearbyLabels at h2
        by_cases hd : threeHalves < getQ c.dist i j
        · rw [if_pos hd] at h2
          exact absurd rfl h2
        · exact le_of_not_lt hd
      · rintro ⟨h1, h2⟩
        refine ⟨h1, ?_⟩
        unfold nearbyLabels
        rw [if_neg (not_lt.mpr h2)]
        exact branchingCounts_pos h1
    · rw [if_neg hij]
      constructor
      · intro hcon
        cases hcon
      · rintro ⟨h1, _⟩
        exfalso
        unfold branchingCounts at h1
        rw [getN_mkG, if_neg hij] at h1
        omega

/-- A seed column next to a two-pixel skeleton stub: the endpoint at
(1,1) sits at propagation distance 1, the endpoint at (1,2) at
distance 2. -/
def c3In : ClassifyIn :=
  ⟨[[false, false, false, false],
    [false, true, true, false],
    [false, false, false, false]],
   [[1, 0, 0, 0], [1, 0, 0, 0], [1, 0, 0, 0]],
   [[1, 0, 0, 0], [1, 1, 1, 0], [1, 0, 0, 0]],
   [[0, 0, 0, 0], [0, 1, 2, 0], [0, 0, 0, 0]],
   [[0, 0, 0, 0], [0, 0, 0, 0], [0, 0, 0, 0]],
   1⟩

/-- Witness for C5 at c3In for seed 1 and pixel (1,1). -/
theorem C5_trunks_witness :
    trunkCounts c3In 1 =
      sumOver (ch c3In) (cw c3In) (fun a b =>
        if getN c3In.dl a b = 1 ∧ getQ c3In.dist a b ≤ threeHalves
        then getN (branchingCounts c3In) a b else 0) ∧
    (getB (trunkMask c3In) 1 1 = true ↔
      (0 < getN (branchingCounts c3In) 1 1 ∧ getQ c3In.dist 1 1 ≤ threeHalves)) :=
  C5_trunks c3In 1 1 1 (by decide) (by decide) (by decide)

theorem mem_poiList {g : GraphIn} {i j : Nat} :
    (i, j) ∈ poiList g ↔ (i < gh g ∧ j < gw g ∧ poiB g i j = true) := by
  unfold poiList
  constructor
  · intro h
    rcases List.mem_flatMap.mp h with ⟨a, ha, h2⟩
    rcases List.mem_filterMap.mp h2 with ⟨b, hb, hab⟩
    by_cases hp : poiB g a b = true
    · rw [if_pos hp] at hab
      cases hab
      exact ⟨List.mem_range.mp ha, List.mem_range.mp hb, hp⟩
    · rw [if_neg hp] at hab
      cases hab
  · rintro ⟨h1, h2, h3⟩
    refine List.mem_flatMap.mpr ⟨i, List.mem_range.mpr h1, ?_⟩
    exact List.mem_filterMap.mpr ⟨j, List.mem_range.mpr h2, by rw [if_pos h3]⟩

theorem mem_vertexTable_E {g : GraphIn} {i j ℓ : Nat} :
    (⟨i, j, ℓ, Kind.E⟩ : Vertex) ∈ vertexTable g ↔
      (i < gh g ∧ j < gw g ∧ poiB g i j = true ∧ getB g.ends i j = true ∧
        ℓ = getN g.lbl i j) := by
  unfold vertexTable
  constructor
  · intro h
    rcases List.mem_map.mp h with ⟨p, hp, heq⟩
    simp only [Vertex.mk.injEq] at heq
    obtain ⟨h1, h2, h3, h4⟩ := heq
    have hpij : p = (i, j) := Prod.ext_iff.mpr ⟨h1, h2⟩
    rw [hpij] at hp h3 h4
    rcases mem_poiList.mp hp with ⟨hi, hj, hpoi⟩
    have hends : getB g.ends i j = true := by
      unfold kindAt at h4
      by_cases he : getB g.ends i j = true
      · exact he
      · rw [if_neg (by simpa using he)] at h4
        by_cases hbr : getB g.branches i j = true
        · rw [if_pos hbr] at h4
          cases h4
        · rw [if_neg hbr] at h4
          cases h4
    exact ⟨hi, hj, hpoi, hends, h3.symm⟩
  · rintro ⟨h1, h2, h3, h4, h5⟩
    refine List.mem_map.mpr ⟨(i, j), mem_poiList.mpr ⟨h1, h2, h3⟩, ?_⟩
    have hk : kindAt g i j = Kind.E := by
      unfold kindAt
      rw [if_pos h4]
    simp [Vertex.mk.injEq, hk, h5]

theorem gh_graphIn (c : ClassifyIn) : gh (graphIn c) = ch c := height_mkG _ _ _

theorem gw_graphIn {c : ClassifyIn} (hh : 0 < ch c) : gw (graphIn c) = cw c :=
  width_mkG_pos _ _ _ hh

/-- C3 counterexample: in c3In the pixel (1,1) has propagation distance 1,
which does not exceed 1.5, yet the vertex table of the graph stage holds a
vertex of kind Endpoint there; the endpoint count, by contrast, counts
only the far endpoint. -/
theorem C3_counterexample :
    (⟨1, 1, 1, Kind.E⟩ : Vertex) ∈ vertexTable (graphIn c3In) ∧
    getQ c3In.dist 1 1 = 1 ∧ ((1 : ℚ) ≤ threeHalves) ∧
    endCounts c3In 1 = 1 :=
  ⟨by decide, rfl, by decide, by decide⟩

/-- C3 amended: a pixel contributes to the endpoint count exactly when it
is an endpoint of the final combined skeleton assigned to the seed with
propagation distance above 1.5; the vertex table, however, holds a
kind-Endpoint vertex for every endpoint of the final combined skeleton
regardless of its propagation distance. -/
theorem C3_amended (c : ClassifyIn) (s i j ℓ : Nat) (hs : 1 ≤ s) :
    endCounts c s =
      sumOver (ch c) (cw c) (fun a b =>
        if getN c.dl a b = s ∧ threeHalves < getQ c.dist a b ∧
            getB (endPts c) a b = true
        then 1 else 0) ∧
    ((⟨i, j, ℓ, Kind.E⟩ : Vertex) ∈ vertexTable (graphIn c) ↔
      (getB (endPts c) i j = true ∧ ℓ = getN c.dl i j)) := by
  constructor
  · unfold endCounts sumOver
    apply Finset.sum_congr rfl
    intro a _
    apply Finset.sum_congr rfl
    intro b _
    beta_reduce
    refine if_congr ?_ rfl rfl
    unfold outsideLabels nearbyLabels
    by_cases hd : threeHalves < getQ c.dist a b
    · rw [if_pos hd, if_neg (lt_irrefl 0)]
      constructor
      · rintro ⟨h1, h2⟩
        exact ⟨h1, hd, h2⟩
      · rintro ⟨h1, _, h2⟩
        exact ⟨h1, h2⟩
    · rw [if_neg hd]
      by_cases hz : 0 < getN c.dl a b
      · rw [if_pos hz]
        constructor
        · rintro ⟨h1, _⟩
          exact absurd h1 (by omega)
        · rintro ⟨_, h2, _⟩
          exact absurd h2 hd
      · rw [if_neg hz]
        constructor
        · rintro ⟨h1, _⟩
          exact absurd h1 (by omega)
        · rintro ⟨_, h2, _⟩
          exact absurd h2 hd
  · rw [mem_vertexTable_E]
    constructor
    · rintro ⟨_, _, _, h4, h5⟩
      exact ⟨h4, h5⟩
    · rintro ⟨h4, h5⟩
      have hi : i < ch c := by
        have := (getB_bounds h4).1
        unfold endPts at this
        rwa [height_mkG] at this
      have hj : j < cw c := by
        have := (getB_bounds h4).2
        unfold endPts at this
        rwa [width_mkG_pos _ _ _ (by omega)] at this
      refine ⟨?_, ?_, ?_, h4, h5⟩
      · rw [gh_graphIn]
        exact hi
      · rw [gw_graphIn (by omega)]
        exact hj
      · unfold poiB
        show (getB (trunkMask c) i j || getB (branchMask c) i j || getB (endPts c) i j) = true
        rw [h4]
        simp

/-- Witness for C3 amended at c3In with seed 1, pixel (1,1), label 1. -/
theorem C3_amended_witness :
    endCounts c3In 1 =
      sumOver (ch c3In) (cw c3In) (fun a b =>
        if getN c3In.dl a b = 1 ∧ threeHalves < getQ c3In.dist a b ∧
            getB (endPts c3In) a b = true
        then 1 else 0) ∧
    ((⟨1, 1, 1, Kind.E⟩ : Vertex) ∈ vertexTable (graphIn c3In) ↔
      (getB (endPts c3In) 1 1 = true ∧ 1 = getN c3In.dl 1 1)) :=
  C3_amended c3In 1 1 1 1 (by decide)

/-! ## C8: unreachable pixels -/

def adjB (i j k l : Nat) : Bool :=
  decide (max i k - min i k ≤ 1) && decide (max j l - min j l ≤ 1) &&
    !(decide (i = k) && decide (j = l))

/-- Modelled from the spec: the guarantee of propagate.propagate (outside
src/) — propagation reaches every mask pixel connected to a seed, so on
the combined skeleton any pixel 8-adjacent to a reached skeleton pixel is
itself reached; the set of unreached (label 0) skeleton pixels is closed
under mask adjacency. -/
def propClosed (c : ClassifyIn) : Bool :=
  (List.range (ch c)).all fun i => (List.range (cw c)).all fun j =>
    (List.range (ch c)).all fun k => (List.range (cw c)).all fun l =>
      !(adjB i j k l && getB c.sk i j && getB c.sk k l &&
          decide (getN c.dl k l ≠ 0))
        || decide (getN c.dl i j ≠ 0)

theorem propClosed_spec {c : ClassifyIn} (h : propClosed c = true) {i j k l : Nat}
    (hi : i < ch c) (hj : j < cw c) (hk : k < ch c) (hl : l < cw c)
    (hadj : adjB i j k l = true) (h1 : getB c.sk i j = true)
    (h2 : getB c.sk k l = true) (h3 : getN c.dl k l ≠ 0) :
    getN c.dl i j ≠ 0 := by
  unfold propClosed at h
  have h4 := List.all_eq_true.mp h i (List.mem_range.mpr hi)
  have h5 := List.all_eq_true.mp h4 j (List.mem_range.mpr hj)
  have h6 := List.all_eq_true.mp h5 k (List.mem_range.mpr hk)
  have h7 := List.all_eq_true.mp h6 l (List.mem_range.mpr hl)
  simp only [Bool.or_eq_true, Bool.not_eq_true'] at h7
  rcases h7 with h7 | h7
  · rw [hadj, h1, h2] at h7
    simp only [Bool.true_and] at h7
    rw [decide_eq_false_iff_not] at h7
    exact absurd h3 h7
  · exact decide_eq_true_eq.mp h7

/-- A closed 8-pixel skeleton loop around (1,1) in rows 0-2, cols 0-2,
disconnected from the single seed at (3,3): every loop pixel keeps
propagation label 0. -/
def c8In : ClassifyIn :=
  ⟨[[true, true, true, false],
    [true, false, true, false],
    [true, true, true, false],
    [false, false, false, false]],
   [[0, 0, 0, 0], [0, 0, 0, 0], [0, 0, 0, 0], [0, 0, 0, 1]],
   [[0, 0, 0, 0], [0, 0, 0, 0], [0, 0, 0, 0], [0, 0, 0, 1]],
   [[0, 0, 0, 0], [0, 0, 0, 0], [0, 0, 0, 0], [0, 0, 0, 0]],
   [[0, 0, 0, 0], [0, 0, 0, 0], [0, 0, 0, 0], [0, 0, 0, 0]],
   1⟩

/-- C8: when propagation labels are closed under mask adjacency, every
combined-skeleton pixel with nearest-seed label 0 is removed before
classification and never becomes a point of interest; and the isolated
loop of c8In yields zero counts for every category and empty vertex and
edge tables. -/
theorem C8_unreachable :
    (∀ (c : ClassifyIn) (i j : Nat), propClosed c = true →
      getB c.sk i j = true → getN c.dl i j = 0 →
      getB (cleanSkel c) i j = false ∧ poiB (graphIn c) i j = false) ∧
    (trunkCounts c8In 1 = 0 ∧ branchCounts c8In 1 = 0 ∧ endCounts c8In 1 = 0 ∧
      vertexTable (graphIn c8In) = [] ∧ edgeTable (graphIn c8In) = []) := by
  constructor
  · intro c i j hpc hsk hdl
    have hib : i < ch c := (getB_bounds hsk).1
    have hjb : j < cw c := (getB_bounds hsk).2
    have hclean : getB (cleanSkel c) i j = false := by
      unfold cleanSkel
      rw [getB_mkG, if_pos ⟨hib, hjb⟩]
      simp [hdl]
    refine ⟨hclean, ?_⟩
    have htrunk : getB (trunkMask c) i j = false := by
      unfold trunkMask
      rw [getB_mkG, if_pos ⟨hib, hjb⟩]
      have hnear : nearbyLabels c i j = 0 := by
        unfold nearbyLabels
        by_cases hd : threeHalves < getQ c.dist i j
        · rw [if_pos hd]
        · rw [if_neg hd]
          exact hdl
      simp [hnear]
    have hend : getB (endPts c) i j = false := by
      unfold endPts
      rw [getB_mkG, if_pos ⟨hib, hjb⟩]
      unfold endPoints
      rw [hclean]
      rfl
    have hbp : getB (branchPts c) i j = false := by
      unfold branchPts fixupBranchPoints
      rw [getB_mkG, if_pos ⟨hib, hjb⟩]
      have h1 : getB (mkG (ch c) (cw c) fun a b => branchPoints (cleanSkel c) a b)
          i j = false := by
        rw [getB_mkG, if_pos ⟨hib, hjb⟩]
        unfold branchPoints
        rw [hclean]
        rfl
      have h2 : oddCase (cleanSkel c) i j = false := by
        unfold oddCase
        rw [hclean]
        rfl
      rw [h1, h2]
      by_cases h1i : 1 ≤ i
      · by_cases h1j : 1 ≤ j
        · by_cases hodd : oddCase (cleanSkel c) (i - 1) (j - 1) = true
          · exfalso
            have hparts := hodd
            unfold oddCase at hparts
            simp only [Bool.and_eq_true] at hparts
            have hcl : getB (cleanSkel c) (i - 1 + 1) (j - 1) = true := hparts.1.1.2
            rw [Nat.sub_add_cancel h1i] at hcl
            have h3 : getB c.sk i (j - 1) = true ∧ getN c.dl i (j - 1) ≠ 0 := by
              unfold cleanSkel at hcl
              rw [getB_mkG] at hcl
              by_cases hin : i < ch c ∧ j - 1 < cw c
              · rw [if_pos hin] at hcl
                simpa using hcl
              · rw [if_neg hin] at hcl
                simp at hcl
            have hadj : adjB i j i (j - 1) = true := by
              unfold adjB
              simp only [Bool.and_eq_true, Bool.not_eq_true, decide_eq_true_eq,
                Bool.not_eq_eq_eq_not, Bool.not_true, Bool.and_eq_false_imp,
                decide_eq_false_iff_not]
              omega
            have hlb : j - 1 < cw c := by omega
            exact absurd (propClosed_spec hpc hib hjb hib hlb hadj hsk h3.1 h3.2) (by
              intro hcon
              exact hcon hdl)
          · rw [(Bool.not_eq_true _).mp hodd]
            simp
        · have : decide (1 ≤ j) = false := by
            rw [decide_eq_false_iff_not]
            exact h1j
          rw [this]
          simp
      · have : decide (1 ≤ i) = false := by
          rw [decide_eq_false_iff_not]
          exact h1i
        rw [this]
        simp
    have hbm : getB (branchMask c) i j = false := by
      unfold branchMask
      rw [getB_mkG]
      by_cases hin : i < ch c ∧ j < cw c
      · rw [if_pos hin, hbp]
        rfl
      · rw [if_neg hin]
    unfold poiB
    show (getB (trunkMask c) i j || getB (branchMask c) i j ||
      getB (endPts c) i j) = false
    rw [htrunk, hbm, hend]
    rfl
  · refine ⟨by decide, by decide, by decide, by decide, by decide⟩

/-- Witness for C8 at the loop pixel (0,0) of c8In. -/
theorem C8_unreachable_witness :
    getB (cleanSkel c8In) 0 0 = false ∧ poiB (graphIn c8In) 0 0 = false :=
  C8_unreachable.1 c8In 0 0 (by decide) (by decide) (by decide)

end MN
